import Mathlib

/-!
Verification development for the `expressions` library
(`src/expressions/expressions.py`).

The library models arithmetic expressions as trees of Python objects
(`Number`, `Symbol`, `Add`, `Sub`, `Mul`, `Div`, `Pow`, all subclasses of
`Expression`), renders them as precedence-aware infix text, folds over them
bottom-up with `postvisitor` (memoized by object identity), and computes
symbolic derivatives with `differentiate` (a `singledispatch` rule table).

Two complementary embeddings are used, both translated from the source:

* a structural embedding `Expression` (a value tree), adequate for the
  purely structural operations `__str__`, the arithmetic dunder methods,
  `Number.__init__` / `Symbol.__init__`, and `differentiate`'s
  rewrite rules;
* a heap embedding (`ENode` / `Heap`), in which nodes are arena entries
  addressed by integer ids, faithful to Python object identity.  This is
  used for `postvisitor` (whose `visited` dict is keyed by object
  identity) and for the aliasing/frame behaviour of `differentiate`
  (the derivative tree embeds the original operand objects).
-/

/-- Model of the Python values that can be handed to `Number` / `Symbol`
and that a `Terminal` node stores.  Only the runtime type matters for the
`isinstance` checks in the source; the `float` payload is inert (no float
arithmetic occurs anywhere in the library). -/
inductive PyVal where
  | int (n : Int)
  | float (n : Int)
  | str (s : String)
  | pyNone
deriving DecidableEq

/-- `isinstance(value, (int, float))` from `Number.__init__`. -/
def isNumeric : PyVal → Bool
  | .int _ => true
  | .float _ => true
  | _ => false

/-- `isinstance(value, str)` from `Symbol.__init__`. -/
def isStr : PyVal → Bool
  | .str _ => true
  | _ => false

/-- Structural embedding of the `Expression` class hierarchy.  The seven
concrete classes of the source become the first seven constructors.
`generic className` models an instance of the instantiable base class
`Operator` constructed with zero operands (or any zero-operand subclass
outside the registered set): such an object carries `symbol = ""`,
`precedence = 0` and an empty operand tuple, and is not registered in
`differentiate`'s rule table; `className` is `type(expr).__name__`.
(No claim inspects the operand tuple of an unregistered node:
`differentiate` raises before touching it.) -/
inductive Expression where
  | number (value : PyVal)
  | symbol (name : String)
  | add (l r : Expression)
  | sub (l r : Expression)
  | mul (l r : Expression)
  | div (l r : Expression)
  | pow (l r : Expression)
  | generic (className : String)
deriving DecidableEq

/-- `Number.__init__`: store the value if it is an `int` or a `float`,
otherwise raise `TypeError("Number value must be an int or float.")`. -/
def Number (v : PyVal) : Except String Expression :=
  if isNumeric v then .ok (.number v) else .error "Number value must be an int or float."

/-- `Symbol.__init__`: store the value if it is a `str`, otherwise raise
`TypeError("Symbol value must be a string.")`.  (Named `SymbolInit`
because `Symbol` is taken by Mathlib.) -/
def SymbolInit (v : PyVal) : Except String Expression :=
  match v with
  | .str s => .ok (.symbol s)
  | _ => .error "Symbol value must be a string."

/-- A Python object reaching a dunder arithmetic method: either an
`Expression` instance or a raw value. -/
inductive PyObj where
  | ofExpr (e : Expression)
  | ofVal (v : PyVal)

/-- `other if isinstance(other, Expression) else Number(other)` — the
operand-wrapping step shared by all ten dunder methods. -/
def wrapOperand : PyObj → Except String Expression
  | .ofExpr e => .ok e
  | .ofVal v => Number v

/-- `Expression.__add__`. -/
def exprAdd (self : Expression) (other : PyObj) : Except String Expression :=
  (wrapOperand other).map (fun w => .add self w)

/-- `Expression.__sub__`. -/
def exprSub (self : Expression) (other : PyObj) : Except String Expression :=
  (wrapOperand other).map (fun w => .sub self w)

/-- `Expression.__mul__`. -/
def exprMul (self : Expression) (other : PyObj) : Except String Expression :=
  (wrapOperand other).map (fun w => .mul self w)

/-- `Expression.__truediv__`. -/
def exprDiv (self : Expression) (other : PyObj) : Except String Expression :=
  (wrapOperand other).map (fun w => .div self w)

/-- `Expression.__pow__`. -/
def exprPow (self : Expression) (other : PyObj) : Except String Expression :=
  (wrapOperand other).map (fun w => .pow self w)

/-- `Expression.__radd__` (reflected: literal on the left). -/
def exprRAdd (self : Expression) (other : PyObj) : Except String Expression :=
  (wrapOperand other).map (fun w => .add w self)

/-- `Expression.__rsub__`. -/
def exprRSub (self : Expression) (other : PyObj) : Except String Expression :=
  (wrapOperand other).map (fun w => .sub w self)

/-- `Expression.__rmul__`. -/
def exprRMul (self : Expression) (other : PyObj) : Except String Expression :=
  (wrapOperand other).map (fun w => .mul w self)

/-- `Expression.__rtruediv__`. -/
def exprRDiv (self : Expression) (other : PyObj) : Except String Expression :=
  (wrapOperand other).map (fun w => .div w self)

/-- `Expression.__rpow__`. -/
def exprRPow (self : Expression) (other : PyObj) : Except String Expression :=
  (wrapOperand other).map (fun w => .pow w self)

/-- Precedence values: the operator classes carry small integers
(`Add`/`Sub` = 1, `Mul`/`Div` = 2, `Pow` = 3, base `Operator` = 0) and
`Terminal` carries `float("inf")`. -/
inductive Prec where
  | fin (n : Nat)
  | inf
deriving DecidableEq

/-- The strict `<` comparison used by `format_operand`
(`operand.precedence < self.precedence`). -/
def precLt : Prec → Prec → Bool
  | .fin a, .fin b => a < b
  | .fin _, .inf => true
  | .inf, _ => false

/-- The class attribute `precedence`. -/
def precedence : Expression → Prec
  | .number _ => .inf
  | .symbol _ => .inf
  | .add _ _ => .fin 1
  | .sub _ _ => .fin 1
  | .mul _ _ => .fin 2
  | .div _ _ => .fin 2
  | .pow _ _ => .fin 3
  | .generic _ => .fin 0

/-- Decimal digits, fuel-indexed so that it reduces by `decide`. -/
def natToStrAux : Nat → Nat → String
  | 0, _ => ""
  | fuel + 1, n =>
    let d := ["0", "1", "2", "3", "4", "5", "6", "7", "8", "9"].getD (n % 10) "0"
    if n < 10 then d else natToStrAux fuel (n / 10) ++ d

/-- Python `str` of a nonnegative integer. -/
def natToStr (n : Nat) : String := natToStrAux (n + 1) n

/-- Python `str` of an `int`. -/
def intToStr (n : Int) : String :=
  if n < 0 then "-" ++ natToStr n.natAbs else natToStr n.natAbs

/-- `Terminal.__str__` is `str(self.value)`. -/
def strVal : PyVal → String
  | .int n => intToStr n
  | .float n => intToStr n ++ ".0"
  | .str s => s
  | .pyNone => "None"

/-- `format_operand` from `Operator.__str__`: wrap in parentheses iff the
operand's precedence is strictly below the parent's. -/
def paren (b : Bool) (s : String) : String :=
  if b then "(" ++ s ++ ")" else s

/-- `Expression.__str__`: a `Terminal` renders as `str(self.value)`; an
operator node joins its formatted operands with `f" {self.symbol} "`,
where `format_operand` parenthesizes an operand iff its precedence is
strictly less than the parent's. -/
def strOf : Expression → String
  | .number v => strVal v
  | .symbol s => s
  | .add l r =>
      paren (precLt (precedence l) (.fin 1)) (strOf l) ++ " + " ++
      paren (precLt (precedence r) (.fin 1)) (strOf r)
  | .sub l r =>
      paren (precLt (precedence l) (.fin 1)) (strOf l) ++ " - " ++
      paren (precLt (precedence r) (.fin 1)) (strOf r)
  | .mul l r =>
      paren (precLt (precedence l) (.fin 2)) (strOf l) ++ " * " ++
      paren (precLt (precedence r) (.fin 2)) (strOf r)
  | .div l r =>
      paren (precLt (precedence l) (.fin 2)) (strOf l) ++ " / " ++
      paren (precLt (precedence r) (.fin 2)) (strOf r)
  | .pow l r =>
      paren (precLt (precedence l) (.fin 3)) (strOf l) ++ " ^ " ++
      paren (precLt (precedence r) (.fin 3)) (strOf r)
  | .generic _ => String.intercalate "  " []

/-- The `singledispatch` function `differentiate`, with one registered
handler per concrete class.  Unregistered variants hit the base handler,
which raises `NotImplementedError(f"Cannot differentiate {type(expr).__name__}")`.
Errors are modelled by `Except.error` carrying the message. -/
def differentiate : Expression → String → Except String Expression
  | .number _, _ => .ok (.number (.int 0))
  | .symbol s, var =>
      if s = var then .ok (.number (.int 1)) else .ok (.number (.int 0))
  | .add l r, var =>
      match differentiate l var with
      | .error m => .error m
      | .ok dl =>
        match differentiate r var with
        | .error m => .error m
        | .ok dr => .ok (.add dl dr)
  | .sub l r, var =>
      match differentiate l var with
      | .error m => .error m
      | .ok dl =>
        match differentiate r var with
        | .error m => .error m
        | .ok dr => .ok (.sub dl dr)
  | .mul l r, var =>
      match differentiate l var with
      | .error m => .error m
      | .ok dl =>
        match differentiate r var with
        | .error m => .error m
        | .ok dr => .ok (.add (.mul dl r) (.mul l dr))
  | .div l r, var =>
      match differentiate l var with
      | .error m => .error m
      | .ok dl =>
        match differentiate r var with
        | .error m => .error m
        | .ok dr => .ok (.div (.sub (.mul r dl) (.mul l dr)) (.pow r (.number (.int 2))))
  | .pow b e, _ => .ok (.mul e (.pow b (.sub e (.number (.int 1)))))
  | .generic name, _ => .error ("Cannot differentiate " ++ name)

/-- Whether a node's class is registered in `differentiate`'s rule table. -/
def inRuleTable : Expression → Bool
  | .generic _ => false
  | _ => true

/-- Characterizes when `differentiate` raises: on an unregistered variant,
or on an `Add`/`Sub`/`Mul`/`Div` node one of whose operands' recursive
differentiation raises.  `Number`, `Symbol` and `Pow` handlers never
recurse and never raise (the `Pow` rule embeds both operands as-is). -/
def diffRaises : Expression → Bool
  | .number _ => false
  | .symbol _ => false
  | .add l r => diffRaises l || diffRaises r
  | .sub l r => diffRaises l || diffRaises r
  | .mul l r => diffRaises l || diffRaises r
  | .div l r => diffRaises l || diffRaises r
  | .pow _ _ => false
  | .generic _ => true

theorem diffRaises_iff_error (e : Expression) (var : String) :
    diffRaises e = true ↔ ∃ msg, differentiate e var = .error msg := by
  induction e with
  | number v => simp [diffRaises, differentiate]
  | symbol s =>
    simp only [diffRaises, differentiate]
    by_cases h : s = var <;> simp [h]
  | add l r ihl ihr =>
    simp only [diffRaises, differentiate, Bool.or_eq_true, ihl, ihr]
    cases hl : differentiate l var <;> cases hr : differentiate r var <;> simp_all
  | sub l r ihl ihr =>
    simp only [diffRaises, differentiate, Bool.or_eq_true, ihl, ihr]
    cases hl : differentiate l var <;> cases hr : differentiate r var <;> simp_all
  | mul l r ihl ihr =>
    simp only [diffRaises, differentiate, Bool.or_eq_true, ihl, ihr]
    cases hl : differentiate l var <;> cases hr : differentiate r var <;> simp_all
  | div l r ihl ihr =>
    simp only [diffRaises, differentiate, Bool.or_eq_true, ihl, ihr]
    cases hl : differentiate l var <;> cases hr : differentiate r var <;> simp_all
  | pow b e ihb ihe => simp [diffRaises, differentiate]
  | generic name => simp [diffRaises, differentiate]

theorem differentiate_error_names_variant (e : Expression) (var : String)
    (msg : String) (h : differentiate e var = .error msg) :
    ∃ name, msg = "Cannot differentiate " ++ name := by
  induction e with
  | number v => simp [differentiate] at h
  | symbol s =>
    by_cases hs : s = var <;> simp [differentiate, hs] at h
  | add l r ihl ihr =>
    simp only [differentiate] at h
    cases hl : differentiate l var with
    | error m =>
      rw [hl] at h; simp only [Except.error.injEq] at h; exact ihl (h ▸ hl)
    | ok dl =>
      rw [hl] at h
      cases hr : differentiate r var with
      | error m =>
        rw [hr] at h; simp only [Except.error.injEq] at h; exact ihr (h ▸ hr)
      | ok dr => rw [hr] at h; simp at h
  | sub l r ihl ihr =>
    simp only [differentiate] at h
    cases hl : differentiate l var with
    | error m =>
      rw [hl] at h; simp only [Except.error.injEq] at h; exact ihl (h ▸ hl)
    | ok dl =>
      rw [hl] at h
      cases hr : differentiate r var with
      | error m =>
        rw [hr] at h; simp only [Except.error.injEq] at h; exact ihr (h ▸ hr)
      | ok dr => rw [hr] at h; simp at h
  | mul l r ihl ihr =>
    simp only [differentiate] at h
    cases hl : differentiate l var with
    | error m =>
      rw [hl] at h; simp only [Except.error.injEq] at h; exact ihl (h ▸ hl)
    | ok dl =>
      rw [hl] at h
      cases hr : differentiate r var with
      | error m =>
        rw [hr] at h; simp only [Except.error.injEq] at h; exact ihr (h ▸ hr)
      | ok dr => rw [hr] at h; simp at h
  | div l r ihl ihr =>
    simp only [differentiate] at h
    cases hl : differentiate l var with
    | error m =>
      rw [hl] at h; simp only [Except.error.injEq] at h; exact ihl (h ▸ hl)
    | ok dl =>
      rw [hl] at h
      cases hr : differentiate r var with
      | error m =>
        rw [hr] at h; simp only [Except.error.injEq] at h; exact ihr (h ▸ hr)
      | ok dr => rw [hr] at h; simp at h
  | pow b e ihb ihe => simp [differentiate] at h
  | generic name =>
    simp only [differentiate, Except.error.injEq] at h
    exact ⟨name, h.symm⟩

/-- Heap embedding of `Expression` objects: a node stored in an arena,
with operands referenced by arena id (Python object identity becomes the
id).  `generic className ops` is an instance of a class outside the
registered set (e.g. the base `Operator`), which still carries an
`operands` tuple and so can be traversed by `postvisitor`. -/
inductive ENode where
  | number (value : PyVal)
  | symbol (name : String)
  | add (l r : Nat)
  | sub (l r : Nat)
  | mul (l r : Nat)
  | div (l r : Nat)
  | pow (l r : Nat)
  | generic (className : String) (ops : List Nat)
deriving DecidableEq

/-- The `operands` tuple of a node (empty for `Terminal`, the two-element
left/right tuple for the binary operator classes). -/
def opsOf : ENode → List Nat
  | .number _ => []
  | .symbol _ => []
  | .add l r => [l, r]
  | .sub l r => [l, r]
  | .mul l r => [l, r]
  | .div l r => [l, r]
  | .pow l r => [l, r]
  | .generic _ ops => ops

/-- An object heap: node `i` is `h.get? i`. -/
abbrev Heap := List ENode

/-- Bottom-up construction invariant of Python object graphs: every
operand of a node exists before the node (its id is strictly smaller), so
the graph is acyclic.  Boolean so that concrete heaps check by `decide`. -/
def validHeapB (h : Heap) : Bool :=
  h.enum.all fun p => (opsOf p.2).all fun o => o < p.1

/-- Propositional form of `validHeapB`. -/
def ValidHeap (h : Heap) : Prop :=
  ∀ i nd, h.get? i = some nd → ∀ o ∈ opsOf nd, o < i

theorem validHeapB_sound (h : Heap) (hb : validHeapB h = true) : ValidHeap h := by
  intro i nd hget o ho
  have hi : i < h.length := by
    by_contra hge
    rw [List.get?_eq_none.mpr (Nat.le_of_not_lt hge)] at hget
    exact Option.noConfusion hget
  have hmem : (i, nd) ∈ h.enum := by
    rw [List.mem_enum_iff_getElem?]
    rw [← List.get?_eq_getElem?]
    exact hget
  have h1 := (List.all_eq_true.mp hb) _ hmem
  have h2 := (List.all_eq_true.mp h1) _ ho
  simpa using h2

/-- A heap whose nodes are all drawn from the seven concrete classes
(`Number`, `Symbol`, `Add`, `Sub`, `Mul`, `Div`, `Pow`). -/
def regularHeapB (h : Heap) : Bool :=
  h.all fun nd => match nd with
  | .generic _ _ => false
  | _ => true

/-- Association-list model of the Python dict `visited`.  An assignment
conses a pair; `lookupA` returns the most recent binding, which matches
dict-update semantics (`visited[e] = ...` overwrites).  Identity of keys
is id equality, matching the default `__hash__`/`__eq__` of `Expression`
(the class defines neither, so dict keying is by object identity). -/
def lookupA {R : Type} : List (Nat × R) → Nat → Option R
  | [], _ => Option.none
  | (k, r) :: v, i => if i = k then some r else lookupA v i

/-- `*(visited[o] for o in e.operands)`: the ordered child results. -/
def lookups {R : Type} (v : List (Nat × R)) : List Nat → Option (List R)
  | [] => some []
  | o :: os =>
    match lookupA v o, lookups v os with
    | some r, some rs => some (r :: rs)
    | _, _ => Option.none

/-- One `while stack:` loop of `postvisitor`, instrumented with a trace of
`fn` invocations (the ids on which `fn` is called, in call order) and
indexed by fuel (each iteration consumes one unit; the loop in the source
terminates because heaps are acyclic).  The stack is a list with its head
as the Python list's tail (`pop`/`append` end).  Pseudocode mirrored:
pop `e`; collect its not-yet-visited operands; if any, push `e` back and
then push them in order (so the last ends on top); otherwise call `fn`
with the ordered child results, assign `visited[e]`, and record the call. -/
def pvLoop {R : Type} (h : Heap) (fn : ENode → List R → R) :
    Nat → List Nat → List (Nat × R) → List Nat →
    Option (List (Nat × R) × List Nat)
  | 0, _, _, _ => Option.none
  | _ + 1, [], v, t => some (v, t)
  | fuel + 1, e :: rest, v, t =>
    match h.get? e with
    | Option.none => Option.none
    | some nd =>
      if ((opsOf nd).filter fun o => (lookupA v o).isNone) = [] then
        match lookups v (opsOf nd) with
        | Option.none => Option.none
        | some rs => pvLoop h fn fuel rest ((e, fn nd rs) :: v) (t ++ [e])
      else
        pvLoop h fn fuel
          (((opsOf nd).filter fun o => (lookupA v o).isNone).reverse ++ e :: rest)
          v t

/-- Run `postvisitor`'s loop from `stack = [expr]`, `visited = {}`. -/
def postvisitorRun {R : Type} (h : Heap) (fn : ENode → List R → R)
    (fuel : Nat) (root : Nat) : Option (List (Nat × R) × List Nat) :=
  pvLoop h fn fuel [root] [] []

/-- `postvisitor(expr, fn, **kwargs)`: the loop's final `visited[expr]`.
`Option.none` means only "fuel exhausted / dangling id", neither of which
occurs on a valid heap with enough fuel. -/
def postvisitor {R : Type} (h : Heap) (fn : ENode → List R → R)
    (fuel : Nat) (root : Nat) : Option R :=
  (postvisitorRun h fn fuel root).bind fun p => lookupA p.1 root

/-- The invocation trace of a `postvisitor` run. -/
def pvTrace {R : Type} (h : Heap) (fn : ENode → List R → R)
    (fuel : Nat) (root : Nat) : Option (List Nat) :=
  (postvisitorRun h fn fuel root).map Prod.snd

/-- The pure bottom-up fold that `postvisitor` computes: fuel-indexed so
it is structurally recursive; `recFoldE` supplies sufficient fuel (on a
valid heap every operand id is smaller, so depth is bounded by the id). -/
def recFoldF {R : Type} [Inhabited R] (h : Heap) (fn : ENode → List R → R) :
    Nat → Nat → R
  | 0, _ => default
  | fuel + 1, i =>
    match h.get? i with
    | Option.none => default
    | some nd => fn nd ((opsOf nd).map (recFoldF h fn fuel))

/-- The value `fn(e, *(results of operands), **kwargs)` computed
bottom-up from node `i`. -/
def recFoldE {R : Type} [Inhabited R] (h : Heap) (fn : ENode → List R → R)
    (i : Nat) : R :=
  recFoldF h fn (i + 1) i

/-- Reachability along operand edges (Python: the descendants of a node). -/
inductive ReachH (h : Heap) : Nat → Nat → Prop
  | refl (i : Nat) : ReachH h i i
  | step {i j k : Nat} {nd : ENode} :
      ReachH h i j → h.get? j = some nd → k ∈ opsOf nd → ReachH h i k

/-- Postorder discipline of an invocation trace: whenever `fn` is invoked
on a node, every operand of that node has already received an invocation. -/
def TraceOK (h : Heap) (t : List Nat) : Prop :=
  ∀ t1 e t2, t = t1 ++ e :: t2 →
    ∃ nd, h.get? e = some nd ∧ ∀ o ∈ opsOf nd, o ∈ t1

theorem lookupA_cons {R : Type} (k : Nat) (x : R) (v : List (Nat × R)) (i : Nat) :
    lookupA ((k, x) :: v) i = if i = k then some x else lookupA v i := rfl

theorem lookupA_isSome_iff_mem {R : Type} (v : List (Nat × R)) (i : Nat) :
    (lookupA v i).isSome = true ↔ i ∈ v.map Prod.fst := by
  induction v with
  | nil => simp [lookupA]
  | cons p v ih =>
    obtain ⟨k, x⟩ := p
    by_cases hik : i = k
    · subst hik; simp [lookupA]
    · simp [lookupA, hik, ih]

theorem lookups_eq_map {R : Type} [Inhabited R] (h : Heap)
    (fn : ENode → List R → R) (v : List (Nat × R)) (ops : List Nat)
    (hall : ∀ o ∈ ops, lookupA v o = some (recFoldE h fn o)) :
    lookups v ops = some (ops.map (recFoldE h fn)) := by
  induction ops with
  | nil => rfl
  | cons o os ih =>
    have h1 : lookupA v o = some (recFoldE h fn o) := hall o (by simp)
    have h2 : lookups v os = some (os.map (recFoldE h fn)) :=
      ih fun o ho => hall o (by simp [ho])
    simp [lookups, h1, h2]

theorem recFoldF_stable {R : Type} [Inhabited R] (h : Heap)
    (fn : ENode → List R → R) (hv : ValidHeap h) :
    ∀ i f1 f2, i < f1 → i < f2 → recFoldF h fn f1 i = recFoldF h fn f2 i := by
  intro i
  induction i using Nat.strong_induction_on with
  | _ i ih =>
    intro f1 f2 h1 h2
    obtain ⟨a, rfl⟩ : ∃ a, f1 = a + 1 := ⟨f1 - 1, by omega⟩
    obtain ⟨b, rfl⟩ : ∃ b, f2 = b + 1 := ⟨f2 - 1, by omega⟩
    simp only [recFoldF]
    cases hget : h.get? i with
    | none => rfl
    | some nd =>
      have hops : ∀ o ∈ opsOf nd, o < i := hv i nd hget
      have hcong : ∀ o ∈ opsOf nd, recFoldF h fn a o = recFoldF h fn b o := by
        intro o ho
        exact ih o (hops o ho) a b (by have := hops o ho; omega)
          (by have := hops o ho; omega)
      show fn nd ((opsOf nd).map (recFoldF h fn a)) =
        fn nd ((opsOf nd).map (recFoldF h fn b))
      rw [List.map_congr_left hcong]

theorem recFoldE_eq {R : Type} [Inhabited R] (h : Heap)
    (fn : ENode → List R → R) (hv : ValidHeap h) (i : Nat) (nd : ENode)
    (hget : h.get? i = some nd) :
    recFoldE h fn i = fn nd ((opsOf nd).map (recFoldE h fn)) := by
  unfold recFoldE
  simp only [recFoldF, hget]
  congr 1
  apply List.map_congr_left
  intro o ho
  have hoi : o < i := hv i nd hget o ho
  exact recFoldF_stable h fn hv o i (o + 1) (by omega) (by omega)

theorem snoc_cases {α : Type} {t t1 t2 : List α} {x e : α}
    (hx : t1 ++ x :: t2 = t ++ [e]) :
    (t1 = t ∧ x = e ∧ t2 = []) ∨ ∃ t2', t2 = t2' ++ [e] ∧ t = t1 ++ x :: t2' := by
  induction t1 generalizing t with
  | nil =>
    cases t with
    | nil =>
      simp only [List.nil_append] at hx
      obtain ⟨h1, h2⟩ := List.cons.inj hx
      exact Or.inl ⟨rfl, h1, h2⟩
    | cons y t' =>
      simp only [List.nil_append, List.cons_append] at hx
      obtain ⟨h1, h2⟩ := List.cons.inj hx
      subst h1
      exact Or.inr ⟨t', h2, by simp⟩
  | cons a t1' ih =>
    cases t with
    | nil =>
      simp only [List.cons_append, List.nil_append] at hx
      obtain ⟨h1, h2⟩ := List.cons.inj hx
      exact absurd h2 (by simp)
    | cons b t' =>
      simp only [List.cons_append] at hx
      obtain ⟨h1, h2⟩ := List.cons.inj hx
      subst h1
      rcases ih h2 with ⟨ha, hb, hc⟩ | ⟨t2', hta, htb⟩
      · exact Or.inl ⟨by rw [ha], hb, hc⟩
      · exact Or.inr ⟨t2', hta, by simp [htb]⟩

theorem traceOK_nil (h : Heap) : TraceOK h [] := by
  intro t1 e t2 hx
  exact absurd hx (by simp)

theorem traceOK_snoc {h : Heap} {t : List Nat} (hT : TraceOK h t)
    {e : Nat} {nd : ENode} (hget : h.get? e = some nd)
    (hops : ∀ o ∈ opsOf nd, o ∈ t) : TraceOK h (t ++ [e]) := by
  intro t1 x t2 hx
  rcases snoc_cases hx.symm with ⟨h1, h2, _⟩ | ⟨t2', _, htb⟩
  · subst h1; subst h2
    exact ⟨nd, hget, hops⟩
  · exact hT t1 x t2' htb

theorem pvLoop_step_push {R : Type} (h : Heap) (fn : ENode → List R → R)
    (m e : Nat) (rest : List Nat) (v : List (Nat × R)) (t : List Nat)
    (nd : ENode) (hget : h.get? e = some nd)
    (hne : ((opsOf nd).filter fun o => (lookupA v o).isNone) ≠ []) :
    pvLoop h fn (m + 1) (e :: rest) v t =
      pvLoop h fn m
        (((opsOf nd).filter fun o => (lookupA v o).isNone).reverse ++ e :: rest)
        v t := by
  simp only [pvLoop, hget]
  rw [if_neg hne]

theorem pvLoop_step_visit {R : Type} (h : Heap) (fn : ENode → List R → R)
    (m e : Nat) (rest : List Nat) (v : List (Nat × R)) (t : List Nat)
    (nd : ENode) (rs : List R) (hget : h.get? e = some nd)
    (hnil : ((opsOf nd).filter fun o => (lookupA v o).isNone) = [])
    (hlk : lookups v (opsOf nd) = some rs) :
    pvLoop h fn (m + 1) (e :: rest) v t =
      pvLoop h fn m rest ((e, fn nd rs) :: v) (t ++ [e]) := by
  simp only [pvLoop, hget, hlk]
  rw [if_pos hnil]

/-- Loop invariant of `postvisitor`: every binding in `visited` holds the
bottom-up fold value of its node; `visited` is closed under operands; its
keys coincide with the ids in the invocation trace; and the trace is
postorder-disciplined. -/
structure InvV {R : Type} [Inhabited R] (h : Heap) (fn : ENode → List R → R)
    (v : List (Nat × R)) (t : List Nat) : Prop where
  val_ok : ∀ i r, lookupA v i = some r →
    ∃ nd, h.get? i = some nd ∧ r = recFoldE h fn i
  closed : ∀ i nd, h.get? i = some nd → (lookupA v i).isSome = true →
    ∀ o ∈ opsOf nd, (lookupA v o).isSome = true
  in_trace : ∀ i, (lookupA v i).isSome = true → i ∈ t
  trace_vis : ∀ e ∈ t, (lookupA v e).isSome = true
  trace_ok : TraceOK h t

theorem invV_init {R : Type} [Inhabited R] (h : Heap) (fn : ENode → List R → R) :
    InvV h fn ([] : List (Nat × R)) [] := by
  refine ⟨?_, ?_, ?_, ?_, traceOK_nil h⟩
  · intro i r hl; exact absurd hl (by simp [lookupA])
  · intro i nd _ hsome; exact absurd hsome (by simp [lookupA])
  · intro i hsome; exact absurd hsome (by simp [lookupA])
  · intro x hx; exact absurd hx (by simp)

theorem pv_visit {R : Type} [Inhabited R] {h : Heap} {fn : ENode → List R → R}
    (hv : ValidHeap h) {e : Nat} {nd : ENode} (hget : h.get? e = some nd)
    {v : List (Nat × R)} {t : List Nat} (inv : InvV h fn v t)
    (hall : ∀ o ∈ opsOf nd, (lookupA v o).isSome = true) :
    (∀ rest fuel, pvLoop h fn (1 + fuel) (e :: rest) v t =
        pvLoop h fn fuel rest ((e, recFoldE h fn e) :: v) (t ++ [e])) ∧
      InvV h fn ((e, recFoldE h fn e) :: v) (t ++ [e]) := by
  have hlks : ∀ o ∈ opsOf nd, lookupA v o = some (recFoldE h fn o) := by
    intro o ho
    obtain ⟨r, hr⟩ := Option.isSome_iff_exists.mp (hall o ho)
    obtain ⟨nd', hnd', hval⟩ := inv.val_ok o r hr
    rw [hr, hval]
  have hnil : ((opsOf nd).filter fun o => (lookupA v o).isNone) = [] := by
    rw [List.filter_eq_nil_iff]
    intro o ho
    simp [hlks o ho]
  have hlk : lookups v (opsOf nd) = some ((opsOf nd).map (recFoldE h fn)) :=
    lookups_eq_map h fn v _ hlks
  constructor
  · intro rest fuel
    rw [Nat.add_comm 1 fuel]
    rw [pvLoop_step_visit h fn fuel e rest v t nd _ hget hnil hlk]
    rw [recFoldE_eq h fn hv e nd hget]
  · constructor
    · intro i r hl
      rw [lookupA_cons] at hl
      by_cases hie : i = e
      · rw [if_pos hie] at hl
        subst hie
        exact ⟨nd, hget, (Option.some.inj hl).symm⟩
      · rw [if_neg hie] at hl
        exact inv.val_ok i r hl
    · intro i nd' hget' hsome o ho
      rw [lookupA_cons]
      by_cases hoe : o = e
      · simp [hoe]
      · rw [if_neg hoe]
        rw [lookupA_cons] at hsome
        by_cases hie : i = e
        · subst hie
          have hnd : nd' = nd := Option.some.inj (hget' ▸ hget)
          subst hnd
          exact hall o ho
        · rw [if_neg hie] at hsome
          exact inv.closed i nd' hget' hsome o ho
    · intro i hsome
      rw [lookupA_cons] at hsome
      by_cases hie : i = e
      · subst hie; exact List.mem_append_right _ (by simp)
      · rw [if_neg hie] at hsome
        exact List.mem_append_left _ (inv.in_trace i hsome)
    · intro x hx
      rw [lookupA_cons]
      by_cases hxe : x = e
      · simp [hxe]
      · rw [if_neg hxe]
        rcases List.mem_append.mp hx with hx1 | hx2
        · exact inv.trace_vis x hx1
        · exact absurd (List.mem_singleton.mp hx2) hxe
    · exact traceOK_snoc inv.trace_ok hget fun o ho => inv.in_trace o (hall o ho)

/-- Processing contract of one stack entry: from any state satisfying the
invariant, popping `e` leads (after finitely many iterations that do not
look at the rest of the stack) to a state where `e` is memoized with its
fold value, the invariant still holds, previous memo entries survive
unchanged, and the trace has only grown. -/
def PvGood {R : Type} [Inhabited R] (h : Heap) (fn : ENode → List R → R)
    (e : Nat) : Prop :=
  ∀ v t, InvV h fn v t →
    ∃ k v' t',
      (∀ rest fuel, pvLoop h fn (k + fuel) (e :: rest) v t =
        pvLoop h fn fuel rest v' t') ∧
      InvV h fn v' t' ∧
      lookupA v' e = some (recFoldE h fn e) ∧
      (∀ i r, lookupA v i = some r → lookupA v' i = some r) ∧
      ∃ tn, t' = t ++ tn

theorem pv_processList {R : Type} [Inhabited R] {h : Heap}
    {fn : ENode → List R → R} (L : List Nat)
    (hL : ∀ c ∈ L, PvGood h fn c) :
    ∀ v t, InvV h fn v t →
      ∃ k v' t',
        (∀ rest fuel, pvLoop h fn (k + fuel) (L ++ rest) v t =
          pvLoop h fn fuel rest v' t') ∧
        InvV h fn v' t' ∧
        (∀ c ∈ L, lookupA v' c = some (recFoldE h fn c)) ∧
        (∀ i r, lookupA v i = some r → lookupA v' i = some r) ∧
        ∃ tn, t' = t ++ tn := by
  induction L with
  | nil =>
    intro v t inv
    exact ⟨0, v, t, fun rest fuel => by simp, inv, by simp, fun i r hr => hr,
      [], by simp⟩
  | cons c L ih =>
    intro v t inv
    obtain ⟨k1, v1, t1, hrun1, inv1, hc1, hpres1, tn1, ht1⟩ :=
      hL c (by simp) v t inv
    obtain ⟨k2, v2, t2, hrun2, inv2, hc2, hpres2, tn2, ht2⟩ :=
      ih (fun c' hc' => hL c' (by simp [hc'])) v1 t1 inv1
    refine ⟨k1 + k2, v2, t2, ?_, inv2, ?_, ?_, ?_⟩
    · intro rest fuel
      calc pvLoop h fn (k1 + k2 + fuel) ((c :: L) ++ rest) v t
          = pvLoop h fn (k1 + (k2 + fuel)) (c :: (L ++ rest)) v t := by
            rw [Nat.add_assoc]; rfl
        _ = pvLoop h fn (k2 + fuel) (L ++ rest) v1 t1 := hrun1 (L ++ rest) (k2 + fuel)
        _ = pvLoop h fn fuel rest v2 t2 := hrun2 rest fuel
    · intro c' hc'
      rcases List.mem_cons.mp hc' with hc' | hc'
      · subst hc'; exact hpres2 c' _ hc1
      · exact hc2 c' hc'
    · intro i r hr
      exact hpres2 i r (hpres1 i r hr)
    · exact ⟨tn1 ++ tn2, by rw [ht2, ht1, List.append_assoc]⟩

theorem pv_process {R : Type} [Inhabited R] {h : Heap}
    {fn : ENode → List R → R} (hv : ValidHeap h) :
    ∀ e, e < h.length → PvGood h fn e := by
  intro e
  induction e using Nat.strong_induction_on with
  | _ e ih =>
    intro he v t inv
    obtain ⟨nd, hget⟩ : ∃ nd, h.get? e = some nd := by
      rw [List.get?_eq_get he]; exact ⟨_, rfl⟩
    by_cases hnil : ((opsOf nd).filter fun o => (lookupA v o).isNone) = []
    · -- all operands already visited: one iteration invokes fn on e
      have hall : ∀ o ∈ opsOf nd, (lookupA v o).isSome = true := by
        intro o ho
        have := List.filter_eq_nil_iff.mp hnil o ho
        simpa [Option.isNone_iff_eq_none, Option.isSome_iff_ne_none] using this
      obtain ⟨hstep, inv'⟩ := pv_visit hv hget inv hall
      refine ⟨1, (e, recFoldE h fn e) :: v, t ++ [e], hstep, inv', ?_, ?_, [e], rfl⟩
      · rw [lookupA_cons, if_pos rfl]
      · intro i r hr
        rw [lookupA_cons]
        by_cases hie : i = e
        · subst hie
          obtain ⟨nd', hnd', hval⟩ := inv.val_ok i r hr
          rw [if_pos rfl, hval]
        · rw [if_neg hie]; exact hr
    · -- some operands unvisited: push them, process them, then revisit e
      have hsub : ∀ c ∈ ((opsOf nd).filter fun o => (lookupA v o).isNone).reverse,
          PvGood h fn c := by
        intro c hc
        rw [List.mem_reverse] at hc
        have hco : c ∈ opsOf nd := List.mem_of_mem_filter hc
        have hce : c < e := hv e nd hget c hco
        exact ih c hce (Nat.lt_trans hce he)
      obtain ⟨kL, v1, t1, hrunL, inv1, hcL, hpresL, tnL, htL⟩ :=
        pv_processList _ hsub v t inv
      have hall1 : ∀ o ∈ opsOf nd, (lookupA v1 o).isSome = true := by
        intro o ho
        by_cases hvo : (lookupA v o).isNone = true
        · have : o ∈ ((opsOf nd).filter fun o => (lookupA v o).isNone).reverse := by
            rw [List.mem_reverse]
            exact List.mem_filter.mpr ⟨ho, hvo⟩
          rw [hcL o this]; rfl
        · obtain ⟨r, hr⟩ := Option.isSome_iff_exists.mp
            (by simpa [Option.isNone_iff_eq_none, Option.isSome_iff_ne_none] using hvo)
          rw [hpresL o r hr]; rfl
      obtain ⟨hstep2, inv'⟩ := pv_visit hv hget inv1 hall1
      refine ⟨1 + kL + 1, (e, recFoldE h fn e) :: v1, t1 ++ [e], ?_, inv', ?_, ?_, ?_⟩
      · intro rest fuel
        have harr : 1 + kL + 1 + fuel = (kL + (1 + fuel)) + 1 := by omega
        rw [harr]
        rw [pvLoop_step_push h fn (kL + (1 + fuel)) e rest v t nd hget hnil]
        rw [hrunL (e :: rest) (1 + fuel)]
        exact hstep2 rest fuel
      · rw [lookupA_cons, if_pos rfl]
      · intro i r hr
        rw [lookupA_cons]
        by_cases hie : i = e
        · subst hie
          obtain ⟨nd', hnd', hval⟩ := inv.val_ok i r hr
          rw [if_pos rfl, hval]
        · rw [if_neg hie]
          exact hpresL i r hr
      · exact ⟨tnL ++ [e], by rw [htL, List.append_assoc]⟩

theorem pv_run {R : Type} [Inhabited R] (h : Heap) (fn : ENode → List R → R)
    (hv : ValidHeap h) (root : Nat) (hroot : root < h.length) :
    ∃ fuel v t,
      postvisitorRun h fn fuel root = some (v, t) ∧
      lookupA v root = some (recFoldE h fn root) ∧
      InvV h fn v t := by
  obtain ⟨k, v', t', hrun, inv', hlook, _, _⟩ :=
    pv_process hv root hroot [] [] (invV_init h fn)
  refine ⟨k + 1, v', t', ?_, hlook, inv'⟩
  unfold postvisitorRun
  rw [hrun [] 1]
  rfl

theorem reach_isSome {R : Type} [Inhabited R] {h : Heap}
    {fn : ENode → List R → R} {v : List (Nat × R)} {t : List Nat}
    (inv : InvV h fn v t) {i d : Nat} (hreach : ReachH h i d)
    (hi : (lookupA v i).isSome = true) : (lookupA v d).isSome = true := by
  induction hreach with
  | refl => exact hi
  | step _ hget hmem ihr => exact inv.closed _ _ hget ihr _ hmem

/-- `count_nodes` from the spec: `fn(e, *child_results) = 1 + sum`. -/
def countNodes : ENode → List Nat → Nat := fun _ rs => rs.sum + 1

/-- The object graph `x = Symbol("x"); tree = Mul(x, x)`: one shared
operand object referenced twice by the same parent node. -/
def sharedHeap : Heap := [.symbol "x", .mul 0 0]

/-- The object graph `Add(Symbol("x"), Symbol("x"))` with two separately
constructed, structurally identical `Symbol` objects. -/
def twinHeap : Heap := [.symbol "x", .symbol "x", .add 0 1]

/-- The object tree of `2 * x + 3`. -/
def exHeap : Heap :=
  [.number (.int 2), .symbol "x", .mul 0 1, .number (.int 3), .add 2 3]

/-- C1: on every acyclic object graph built from the seven concrete
variants, `postvisitor(root, fn, **kwargs)` terminates and returns `fn`
applied to the root together with the ordered list of its operands'
already-computed results (it returns the bottom-up fold value, and the
fold value at the root is exactly `fn(root, *(operand results))`), and
the invocation trace is postorder: whenever `fn` is invoked on a node,
every operand of that node has already received an invocation. -/
theorem postvisitor_postorder_correct {R : Type} [Inhabited R]
    (h : Heap) (fn : ENode → List R → R) (root : Nat)
    (hreg : regularHeapB h = true) (hv : ValidHeap h)
    (hroot : root < h.length) :
    ∃ fuel v t,
      postvisitorRun h fn fuel root = some (v, t) ∧
      postvisitor h fn fuel root = some (recFoldE h fn root) ∧
      (∀ nd, h.get? root = some nd →
        recFoldE h fn root = fn nd ((opsOf nd).map (recFoldE h fn))) ∧
      TraceOK h t := by
  obtain ⟨fuel, v, t, hrun, hlook, inv⟩ := pv_run h fn hv root hroot
  refine ⟨fuel, v, t, hrun, ?_, ?_, inv.trace_ok⟩
  · unfold postvisitor
    rw [hrun]
    exact hlook
  · intro nd hnd
    exact recFoldE_eq h fn hv root nd hnd

theorem postvisitor_postorder_correct_witness :
    ∃ fuel v t,
      postvisitorRun exHeap countNodes fuel 4 = some (v, t) ∧
      postvisitor exHeap countNodes fuel 4 = some (recFoldE exHeap countNodes 4) ∧
      (∀ nd, exHeap.get? 4 = some nd →
        recFoldE exHeap countNodes 4 =
          countNodes nd ((opsOf nd).map (recFoldE exHeap countNodes))) ∧
      TraceOK exHeap t :=
  postvisitor_postorder_correct exHeap countNodes 4 (by decide)
    (validHeapB_sound _ (by decide)) (by decide)

/-- C2 counterexample: on the accepted input `Mul(x, x)` (the same
`Symbol` object passed twice to one parent), the run invokes `fn` on the
distinct node object `x` (id 0) twice — the trace is `[0, 0, 1]` — so
"each distinct node object has fn invoked on it at most once" fails.
(`postvisitor` also returns 3 for the spec's `count_nodes` even though
the graph has 2 distinct node identities.) -/
theorem pv_fn_invoked_twice_cex :
    validHeapB sharedHeap = true ∧
    pvTrace sharedHeap countNodes 10 1 = some [0, 0, 1] ∧
    [0, 0, 1].count 0 = 2 ∧
    sharedHeap.length = 2 ∧
    postvisitor sharedHeap countNodes 10 1 = some 3 := by decide

/-- C2 (amended): each distinct node object reachable from the root has
`fn` invoked on it at least once, and its result is stored under exactly
one key of the identity-keyed memo, holding the node's bottom-up fold
value; but a node referenced more than once may receive more than one
`fn` invocation. -/
theorem pv_invocation_amended {R : Type} [Inhabited R]
    (h : Heap) (fn : ENode → List R → R) (root i : Nat)
    (hv : ValidHeap h) (hroot : root < h.length)
    (hreach : ReachH h root i) :
    ∃ fuel v t,
      postvisitorRun h fn fuel root = some (v, t) ∧
      1 ≤ t.count i ∧
      lookupA v i = some (recFoldE h fn i) ∧
      (v.map Prod.fst).dedup.count i = 1 := by
  obtain ⟨fuel, v, t, hrun, hlook, inv⟩ := pv_run h fn hv root hroot
  have hsome : (lookupA v i).isSome = true :=
    reach_isSome inv hreach (by rw [hlook]; rfl)
  have hmem : i ∈ t := inv.in_trace i hsome
  refine ⟨fuel, v, t, hrun, ?_, ?_, ?_⟩
  · exact List.count_pos_iff.mpr hmem
  · obtain ⟨r, hr⟩ := Option.isSome_iff_exists.mp hsome
    obtain ⟨nd', _, hval⟩ := inv.val_ok i r hr
    rw [hr, hval]
  · have hk : i ∈ v.map Prod.fst := (lookupA_isSome_iff_mem v i).mp hsome
    rw [List.count_dedup, if_pos hk]

theorem pv_invocation_amended_witness :
    ∃ fuel v t,
      postvisitorRun sharedHeap countNodes fuel 1 = some (v, t) ∧
      1 ≤ t.count 0 ∧
      lookupA v 0 = some (recFoldE sharedHeap countNodes 0) ∧
      (v.map Prod.fst).dedup.count 0 = 1 :=
  pv_invocation_amended sharedHeap countNodes 1 0
    (validHeapB_sound _ (by decide)) (by decide)
    (ReachH.step (ReachH.refl 1) (rfl : sharedHeap.get? 1 = some (.mul 0 0))
      (by decide))

/-- C9: the `visited` tracking and memoization of `postvisitor` are keyed
by object identity, not structural equality: two distinct reachable node
objects — even ones holding identical values (`h.get? i = h.get? j`) —
are each invoked through `fn` and memoized under their own key, and each
distinct node object contributes exactly one key to the memo. -/
theorem pv_memo_keyed_by_identity {R : Type} [Inhabited R]
    (h : Heap) (fn : ENode → List R → R) (root i j : Nat)
    (hv : ValidHeap h) (hroot : root < h.length)
    (hri : ReachH h root i) (hrj : ReachH h root j)
    (hij : i ≠ j) (hsame : h.get? i = h.get? j) :
    ∃ fuel v t,
      postvisitorRun h fn fuel root = some (v, t) ∧
      i ∈ t ∧ j ∈ t ∧
      lookupA v i = some (recFoldE h fn i) ∧
      lookupA v j = some (recFoldE h fn j) ∧
      (v.map Prod.fst).dedup.count i = 1 ∧
      (v.map Prod.fst).dedup.count j = 1 := by
  obtain ⟨fuel, v, t, hrun, hlook, inv⟩ := pv_run h fn hv root hroot
  have hri' : (lookupA v i).isSome = true :=
    reach_isSome inv hri (by rw [hlook]; rfl)
  have hrj' : (lookupA v j).isSome = true :=
    reach_isSome inv hrj (by rw [hlook]; rfl)
  obtain ⟨ri, hvi⟩ := Option.isSome_iff_exists.mp hri'
  obtain ⟨rj, hvj⟩ := Option.isSome_iff_exists.mp hrj'
  obtain ⟨_, _, hvali⟩ := inv.val_ok i ri hvi
  obtain ⟨_, _, hvalj⟩ := inv.val_ok j rj hvj
  refine ⟨fuel, v, t, hrun, inv.in_trace i hri', inv.in_trace j hrj',
    by rw [hvi, hvali], by rw [hvj, hvalj], ?_, ?_⟩
  · rw [List.count_dedup, if_pos ((lookupA_isSome_iff_mem v i).mp hri')]
  · rw [List.count_dedup, if_pos ((lookupA_isSome_iff_mem v j).mp hrj')]

theorem pv_memo_keyed_by_identity_witness :
    ∃ fuel v t,
      postvisitorRun twinHeap countNodes fuel 2 = some (v, t) ∧
      0 ∈ t ∧ 1 ∈ t ∧
      lookupA v 0 = some (recFoldE twinHeap countNodes 0) ∧
      lookupA v 1 = some (recFoldE twinHeap countNodes 1) ∧
      (v.map Prod.fst).dedup.count 0 = 1 ∧
      (v.map Prod.fst).dedup.count 1 = 1 :=
  pv_memo_keyed_by_identity twinHeap countNodes 2 0 1
    (validHeapB_sound _ (by decide)) (by decide)
    (ReachH.step (ReachH.refl 2) (rfl : twinHeap.get? 2 = some (.add 0 1))
      (by decide))
    (ReachH.step (ReachH.refl 2) (rfl : twinHeap.get? 2 = some (.add 0 1))
      (by decide))
    (by decide) rfl

/-- C3: `differentiate` implements the rule table exactly on the
registered variants — `d(Number) = Number(0)`; `d(Symbol)` is `Number(1)`
iff the name equals `var`, else `Number(0)`; `Add`, `Sub` map to the
node-wise derivative; `Mul` to the product rule; `Div` to the quotient
rule — for every expression and variable name. -/
theorem differentiate_rule_table (var : String) :
    (∀ v, differentiate (.number v) var = .ok (.number (.int 0))) ∧
    (∀ s, s = var → differentiate (.symbol s) var = .ok (.number (.int 1))) ∧
    (∀ s, s ≠ var → differentiate (.symbol s) var = .ok (.number (.int 0))) ∧
    (∀ l r dl dr, differentiate l var = .ok dl → differentiate r var = .ok dr →
      differentiate (.add l r) var = .ok (.add dl dr)) ∧
    (∀ l r dl dr, differentiate l var = .ok dl → differentiate r var = .ok dr →
      differentiate (.sub l r) var = .ok (.sub dl dr)) ∧
    (∀ l r dl dr, differentiate l var = .ok dl → differentiate r var = .ok dr →
      differentiate (.mul l r) var = .ok (.add (.mul dl r) (.mul l dr))) ∧
    (∀ l r dl dr, differentiate l var = .ok dl → differentiate r var = .ok dr →
      differentiate (.div l r) var =
        .ok (.div (.sub (.mul r dl) (.mul l dr)) (.pow r (.number (.int 2))))) := by
  refine ⟨fun v => rfl, ?_, ?_, ?_, ?_, ?_, ?_⟩
  · intro s hs; simp [differentiate, hs]
  · intro s hs; simp [differentiate, hs]
  · intro l r dl dr hl hr; simp [differentiate, hl, hr]
  · intro l r dl dr hl hr; simp [differentiate, hl, hr]
  · intro l r dl dr hl hr; simp [differentiate, hl, hr]
  · intro l r dl dr hl hr; simp [differentiate, hl, hr]

theorem differentiate_rule_table_witness :
    differentiate (.add (.symbol "x") (.symbol "y")) "x" =
      .ok (.add (.number (.int 1)) (.number (.int 0))) :=
  (differentiate_rule_table "x").2.2.2.1 (.symbol "x") (.symbol "y")
    (.number (.int 1)) (.number (.int 0)) (by simp [differentiate])
    (by simp [differentiate])

/-- C4: for every `Pow(base, exp)` and every variable name, the
derivative is `Mul(exp, Pow(base, Sub(exp, Number(1))))`; the exponent
subtree is embedded as-is and is never itself differentiated (the
equation holds for arbitrary `e`, including ones mentioning `var` and
even unregistered nodes whose differentiation would raise). -/
theorem differentiate_pow_constant_exponent (b e : Expression) (var : String) :
    differentiate (.pow b e) var =
      .ok (.mul e (.pow b (.sub e (.number (.int 1))))) ∧
    differentiate (.pow (.symbol "x") (.number (.int 3))) "x" =
      .ok (.mul (.number (.int 3))
        (.pow (.symbol "x") (.sub (.number (.int 3)) (.number (.int 1))))) ∧
    differentiate (.pow (.symbol "x") (.symbol "x")) "x" =
      .ok (.mul (.symbol "x")
        (.pow (.symbol "x") (.sub (.symbol "x") (.number (.int 1))))) :=
  ⟨rfl, rfl, rfl⟩

/-- C5: an operator node renders as its operands joined by
`" <symbol> "`, an operand being parenthesized iff its precedence is
strictly below the parent's; a leaf renders as its literal value; in
particular the equal-precedence chain `Sub(a, Sub(b, c))` renders without
parentheses and the lower-precedence operand of `Mul` is parenthesized. -/
theorem strOf_spec :
    (∀ l r, strOf (.add l r) =
      (if precLt (precedence l) (precedence (.add l r)) then
        "(" ++ strOf l ++ ")" else strOf l) ++ " + " ++
      (if precLt (precedence r) (precedence (.add l r)) then
        "(" ++ strOf r ++ ")" else strOf r)) ∧
    (∀ l r, strOf (.sub l r) =
      (if precLt (precedence l) (precedence (.sub l r)) then
        "(" ++ strOf l ++ ")" else strOf l) ++ " - " ++
      (if precLt (precedence r) (precedence (.sub l r)) then
        "(" ++ strOf r ++ ")" else strOf r)) ∧
    (∀ l r, strOf (.mul l r) =
      (if precLt (precedence l) (precedence (.mul l r)) then
        "(" ++ strOf l ++ ")" else strOf l) ++ " * " ++
      (if precLt (precedence r) (precedence (.mul l r)) then
        "(" ++ strOf r ++ ")" else strOf r)) ∧
    (∀ l r, strOf (.div l r) =
      (if precLt (precedence l) (precedence (.div l r)) then
        "(" ++ strOf l ++ ")" else strOf l) ++ " / " ++
      (if precLt (precedence r) (precedence (.div l r)) then
        "(" ++ strOf r ++ ")" else strOf r)) ∧
    (∀ l r, strOf (.pow l r) =
      (if precLt (precedence l) (precedence (.pow l r)) then
        "(" ++ strOf l ++ ")" else strOf l) ++ " ^ " ++
      (if precLt (precedence r) (precedence (.pow l r)) then
        "(" ++ strOf r ++ ")" else strOf r)) ∧
    (∀ v, strOf (.number v) = strVal v) ∧
    (∀ s, strOf (.symbol s) = s) ∧
    strOf (.sub (.symbol "a") (.sub (.symbol "b") (.symbol "c"))) =
      "a - b - c" ∧
    strOf (.mul (.add (.symbol "x") (.number (.int 1))) (.number (.int 2))) =
      "(x + 1) * 2" ∧
    strOf (.add (.mul (.number (.int 2)) (.symbol "x")) (.number (.int 3))) =
      "2 * x + 3" :=
  ⟨fun l r => rfl, fun l r => rfl, fun l r => rfl, fun l r => rfl,
   fun l r => rfl, fun v => rfl, fun s => rfl, by decide, by decide, by decide⟩

/-- C6: each infix combinator wraps a non-`Expression` operand as
`Number` and builds the corresponding operator node, preserving operand
order, in both the plain and reflected forms. -/
theorem combinators_build_nodes (e : Expression) (v : PyVal)
    (hnum : isNumeric v = true) :
    exprAdd e (.ofVal v) = .ok (.add e (.number v)) ∧
    exprRAdd e (.ofVal v) = .ok (.add (.number v) e) ∧
    exprSub e (.ofVal v) = .ok (.sub e (.number v)) ∧
    exprRSub e (.ofVal v) = .ok (.sub (.number v) e) ∧
    exprMul e (.ofVal v) = .ok (.mul e (.number v)) ∧
    exprRMul e (.ofVal v) = .ok (.mul (.number v) e) ∧
    exprDiv e (.ofVal v) = .ok (.div e (.number v)) ∧
    exprRDiv e (.ofVal v) = .ok (.div (.number v) e) ∧
    exprPow e (.ofVal v) = .ok (.pow e (.number v)) ∧
    exprRPow e (.ofVal v) = .ok (.pow (.number v) e) := by
  have hN : Number v = .ok (.number v) := by simp [Number, hnum]
  refine ⟨?_, ?_, ?_, ?_, ?_, ?_, ?_, ?_, ?_, ?_⟩ <;>
    simp [exprAdd, exprRAdd, exprSub, exprRSub, exprMul, exprRMul,
      exprDiv, exprRDiv, exprPow, exprRPow, wrapOperand, Except.map, hN]

theorem combinators_build_nodes_witness :
    exprAdd (.symbol "x") (.ofVal (.int 5)) =
      .ok (.add (.symbol "x") (.number (.int 5))) ∧
    exprRAdd (.symbol "x") (.ofVal (.int 5)) =
      .ok (.add (.number (.int 5)) (.symbol "x")) ∧
    exprSub (.symbol "x") (.ofVal (.int 5)) =
      .ok (.sub (.symbol "x") (.number (.int 5))) ∧
    exprRSub (.symbol "x") (.ofVal (.int 5)) =
      .ok (.sub (.number (.int 5)) (.symbol "x")) ∧
    exprMul (.symbol "x") (.ofVal (.int 5)) =
      .ok (.mul (.symbol "x") (.number (.int 5))) ∧
    exprRMul (.symbol "x") (.ofVal (.int 5)) =
      .ok (.mul (.number (.int 5)) (.symbol "x")) ∧
    exprDiv (.symbol "x") (.ofVal (.int 5)) =
      .ok (.div (.symbol "x") (.number (.int 5))) ∧
    exprRDiv (.symbol "x") (.ofVal (.int 5)) =
      .ok (.div (.number (.int 5)) (.symbol "x")) ∧
    exprPow (.symbol "x") (.ofVal (.int 5)) =
      .ok (.pow (.symbol "x") (.number (.int 5))) ∧
    exprRPow (.symbol "x") (.ofVal (.int 5)) =
      .ok (.pow (.number (.int 5)) (.symbol "x")) :=
  combinators_build_nodes (.symbol "x") (.int 5) (by decide)

/-- C7: `Number(v)` succeeds exactly on numeric values and otherwise
raises at construction; `Symbol(v)` succeeds exactly on strings and
otherwise raises at construction. -/
theorem constructor_type_checks (v : PyVal) :
    (isNumeric v = true → Number v = .ok (.number v)) ∧
    (isNumeric v = false →
      Number v = .error "Number value must be an int or float.") ∧
    (∀ s, v = .str s → SymbolInit v = .ok (.symbol s)) ∧
    (isStr v = false →
      SymbolInit v = .error "Symbol value must be a string.") := by
  refine ⟨?_, ?_, ?_, ?_⟩
  · intro hn; simp [Number, hn]
  · intro hn; simp [Number, hn]
  · intro s hs; subst hs; rfl
  · intro hs; cases v <;> simp_all [SymbolInit, isStr]

theorem constructor_type_checks_witness :
    Number (.int 5) = .ok (.number (.int 5)) ∧
    Number (.str "a") = .error "Number value must be an int or float." ∧
    SymbolInit (.str "x") = .ok (.symbol "x") ∧
    SymbolInit (.int 3) = .error "Symbol value must be a string." :=
  ⟨(constructor_type_checks (.int 5)).1 rfl,
   (constructor_type_checks (.str "a")).2.1 rfl,
   (constructor_type_checks (.str "x")).2.2.1 "x" rfl,
   (constructor_type_checks (.int 3)).2.2.2 rfl⟩

/-- C8 counterexample: `differentiate` also raises the
"Cannot differentiate ..." error on a node whose own variant IS in the
rule table — an `Add` node one of whose operands is an unregistered
`Operator` instance — so the error is not raised "for exactly" the nodes
whose variant is outside the table. -/
theorem differentiate_error_beyond_table_cex :
    inRuleTable (.add (.generic "Operator") (.number (.int 0))) = true ∧
    differentiate (.add (.generic "Operator") (.number (.int 0))) "x" =
      .error "Cannot differentiate Operator" :=
  ⟨rfl, rfl⟩

/-- C8 (amended): every unregistered variant raises
`NotImplementedError(f"Cannot differentiate {name}")` naming the variant,
and `differentiate` raises exactly on the inputs characterized by
`diffRaises`: nodes that are themselves unregistered, or
`Add`/`Sub`/`Mul`/`Div` nodes whose recursive operand differentiation
raises (`Number`, `Symbol` and `Pow` inputs never raise); every raised
message names an unregistered variant. -/
theorem differentiate_error_characterization (e : Expression) (var : String) :
    (∀ name, differentiate (.generic name) var =
      .error ("Cannot differentiate " ++ name)) ∧
    ((∃ msg, differentiate e var = .error msg) ↔ diffRaises e = true) ∧
    (∀ msg, differentiate e var = .error msg →
      ∃ name, msg = "Cannot differentiate " ++ name) := by
  refine ⟨fun name => rfl, (diffRaises_iff_error e var).symm, ?_⟩
  intro msg hmsg
  exact differentiate_error_names_variant e var msg hmsg

theorem differentiate_error_characterization_witness :
    differentiate (.generic "Operator") "x" =
      .error "Cannot differentiate Operator" ∧
    diffRaises (.generic "Operator") = true ∧
    ∃ name, "Cannot differentiate Operator" = "Cannot differentiate " ++ name :=
  ⟨(differentiate_error_characterization (.generic "Operator") "x").1 "Operator",
   (differentiate_error_characterization (.generic "Operator") "x").2.1.mp
     ⟨"Cannot differentiate Operator", rfl⟩,
   (differentiate_error_characterization (.generic "Operator") "x").2.2
     "Cannot differentiate Operator" rfl⟩

/-- Allocate a fresh object at the end of the heap and return its id. -/
def pushN (h : Heap) (nd : ENode) : Heap × Nat := (h ++ [nd], h.length)

/-- Heap-level `differentiate`: the registered handlers construct the
derivative as freshly allocated objects, while references to the input's
operand objects (`expr.operands[0]`, `expr.operands[1]`) are embedded as
the ORIGINAL ids — the derivative tree aliases the input's subtrees, it
does not copy them, and no existing heap entry is modified.  Allocation
order follows Python's innermost-first argument evaluation.  `fuel`
bounds the recursion depth (any `fuel > i` suffices on a valid heap,
since operand ids strictly decrease). -/
def diffHF : Nat → Heap → Nat → String → Except String (Heap × Nat)
  | 0, _, _, _ => .error "maximum recursion depth exceeded"
  | fuel + 1, h, i, var =>
    match h.get? i with
    | Option.none => .error "invalid node id"
    | some (.number _) => .ok (pushN h (.number (.int 0)))
    | some (.symbol s) =>
        if s = var then .ok (pushN h (.number (.int 1)))
        else .ok (pushN h (.number (.int 0)))
    | some (.add l r) =>
        match diffHF fuel h l var with
        | .error m => .error m
        | .ok (h1, dl) =>
          match diffHF fuel h1 r var with
          | .error m => .error m
          | .ok (h2, dr) => .ok (pushN h2 (.add dl dr))
    | some (.sub l r) =>
        match diffHF fuel h l var with
        | .error m => .error m
        | .ok (h1, dl) =>
          match diffHF fuel h1 r var with
          | .error m => .error m
          | .ok (h2, dr) => .ok (pushN h2 (.sub dl dr))
    | some (.mul l r) =>
        match diffHF fuel h l var with
        | .error m => .error m
        | .ok (h1, dl) =>
          match diffHF fuel h1 r var with
          | .error m => .error m
          | .ok (h2, dr) =>
            let p1 := pushN h2 (.mul dl r)
            let p2 := pushN p1.1 (.mul l dr)
            .ok (pushN p2.1 (.add p1.2 p2.2))
    | some (.div l r) =>
        match diffHF fuel h l var with
        | .error m => .error m
        | .ok (h1, dl) =>
          match diffHF fuel h1 r var with
          | .error m => .error m
          | .ok (h2, dr) =>
            let p1 := pushN h2 (.mul r dl)
            let p2 := pushN p1.1 (.mul l dr)
            let p3 := pushN p2.1 (.sub p1.2 p2.2)
            let p4 := pushN p3.1 (.number (.int 2))
            let p5 := pushN p4.1 (.pow r p4.2)
            .ok (pushN p5.1 (.div p3.2 p5.2))
    | some (.pow b e) =>
        let p1 := pushN h (.number (.int 1))
        let p2 := pushN p1.1 (.sub e p1.2)
        let p3 := pushN p2.1 (.pow b p2.2)
        .ok (pushN p3.1 (.mul e p3.2))
    | some (.generic name _) => .error ("Cannot differentiate " ++ name)

/-- `differentiate(expr, var)` at heap level, with sufficient fuel. -/
def diffH (h : Heap) (i : Nat) (var : String) : Except String (Heap × Nat) :=
  diffHF (i + 1) h i var

theorem get?_append_add (L : Heap) (xs : List ENode) (k : Nat) :
    (L ++ xs).get? (L.length + k) = xs.get? k := by
  rw [List.get?_append_right (Nat.le_add_right _ _)]
  congr 1
  omega

theorem diffHF_append :
    ∀ fuel (h : Heap) i var h' j, diffHF fuel h i var = .ok (h', j) →
      ∃ ext, h' = h ++ ext := by
  intro fuel
  induction fuel with
  | zero =>
    intro h i var h' j hd
    exact absurd hd (by simp [diffHF])
  | succ fuel ih =>
    intro h i var h' j hd
    simp only [diffHF] at hd
    split at hd
    · simp at hd
    · -- Number
      simp only [pushN, Except.ok.injEq, Prod.mk.injEq] at hd
      exact ⟨[.number (.int 0)], hd.1.symm⟩
    · -- Symbol
      split at hd <;>
        simp only [pushN, Except.ok.injEq, Prod.mk.injEq] at hd
      · exact ⟨[.number (.int 1)], hd.1.symm⟩
      · exact ⟨[.number (.int 0)], hd.1.symm⟩
    next l r heq0 =>
      -- Add
      split at hd
      · simp at hd
      next h1 d1 heq1 =>
        split at hd
        · simp at hd
        next h2 d2 heq2 =>
          simp only [pushN, Except.ok.injEq, Prod.mk.injEq] at hd
          obtain ⟨e1, he1⟩ := ih _ _ _ _ _ heq1
          obtain ⟨e2, he2⟩ := ih _ _ _ _ _ heq2
          refine ⟨e1 ++ (e2 ++ [.add d1 d2]), ?_⟩
          rw [← hd.1, he2, he1]
          simp [List.append_assoc]
    next l r heq0 =>
      -- Sub
      split at hd
      · simp at hd
      next h1 d1 heq1 =>
        split at hd
        · simp at hd
        next h2 d2 heq2 =>
          simp only [pushN, Except.ok.injEq, Prod.mk.injEq] at hd
          obtain ⟨e1, he1⟩ := ih _ _ _ _ _ heq1
          obtain ⟨e2, he2⟩ := ih _ _ _ _ _ heq2
          refine ⟨e1 ++ (e2 ++ [.sub d1 d2]), ?_⟩
          rw [← hd.1, he2, he1]
          simp [List.append_assoc]
    next l r heq0 =>
      -- Mul
      split at hd
      · simp at hd
      next h1 d1 heq1 =>
        split at hd
        · simp at hd
        next h2 d2 heq2 =>
          simp only [pushN, Except.ok.injEq, Prod.mk.injEq] at hd
          obtain ⟨e1, he1⟩ := ih _ _ _ _ _ heq1
          obtain ⟨e2, he2⟩ := ih _ _ _ _ _ heq2
          refine ⟨e1 ++ (e2 ++ [.mul d1 r, .mul l d2, .add h2.length (h2.length + 1)]), ?_⟩
          rw [← hd.1, he2, he1]
          simp [List.append_assoc] <;> omega
    next l r heq0 =>
      -- Div
      split at hd
      · simp at hd
      next h1 d1 heq1 =>
        split at hd
        · simp at hd
        next h2 d2 heq2 =>
          simp only [pushN, Except.ok.injEq, Prod.mk.injEq] at hd
          obtain ⟨e1, he1⟩ := ih _ _ _ _ _ heq1
          obtain ⟨e2, he2⟩ := ih _ _ _ _ _ heq2
          refine ⟨e1 ++ (e2 ++ [.mul r d1, .mul l d2,
            .sub h2.length (h2.length + 1), .number (.int 2),
            .pow r (h2.length + 3),
            .div (h2.length + 2) (h2.length + 4)]), ?_⟩
          rw [← hd.1, he2, he1]
          simp [List.append_assoc] <;> omega
    next b e heq0 =>
      -- Pow
      simp only [pushN, Except.ok.injEq, Prod.mk.injEq] at hd
      refine ⟨[.number (.int 1), .sub e h.length, .pow b (h.length + 1),
        .mul e (h.length + 2)], ?_⟩
      rw [← hd.1]
      simp [List.append_assoc]
    · -- unregistered variant
      simp at hd

/-- C10: the derivative tree aliases the input's subtrees rather than
copying them — the `Mul`, `Div` and `Pow` handlers embed the original
operand objects (`expr.operands[0]`, `expr.operands[1]`, i.e. the ids `l`
and `r` of the input node) directly in the freshly built result nodes —
and differentiation never mutates a node of the input heap (every
pre-existing id still maps to its original node). -/
theorem differentiate_aliases_operands (h : Heap) (var : String) :
    (∀ fuel i h' j, diffHF fuel h i var = .ok (h', j) →
      ∀ k, k < h.length → h'.get? k = h.get? k) ∧
    (∀ fuel i l r h' j, h.get? i = some (.mul l r) →
      diffHF fuel h i var = .ok (h', j) →
      ∃ a b dl dr, h'.get? j = some (.add a b) ∧
        h'.get? a = some (.mul dl r) ∧ h'.get? b = some (.mul l dr)) ∧
    (∀ fuel i l r h' j, h.get? i = some (.div l r) →
      diffHF fuel h i var = .ok (h', j) →
      ∃ c2 e2 a b dl dr d2, h'.get? j = some (.div c2 e2) ∧
        h'.get? c2 = some (.sub a b) ∧ h'.get? a = some (.mul r dl) ∧
        h'.get? b = some (.mul l dr) ∧ h'.get? e2 = some (.pow r d2) ∧
        h'.get? d2 = some (.number (.int 2))) ∧
    (∀ fuel i bb ee h' j, h.get? i = some (.pow bb ee) →
      diffHF fuel h i var = .ok (h', j) →
      ∃ p s one, h'.get? j = some (.mul ee p) ∧ h'.get? p = some (.pow bb s) ∧
        h'.get? s = some (.sub ee one) ∧
        h'.get? one = some (.number (.int 1))) := by
  refine ⟨?_, ?_, ?_, ?_⟩
  · intro fuel i h' j hd k hk
    obtain ⟨ext, hext⟩ := diffHF_append fuel h i var h' j hd
    rw [hext]
    exact List.get?_append hk
  · intro fuel i l r h' j hget hd
    cases fuel with
    | zero => exact absurd hd (by simp [diffHF])
    | succ fuel =>
      simp only [diffHF] at hd
      split at hd
      · simp at hd
      next v heq0 => rw [hget] at heq0; simp at heq0
      next s heq0 => rw [hget] at heq0; simp at heq0
      next l' r' heq0 => rw [hget] at heq0; simp at heq0
      next l' r' heq0 => rw [hget] at heq0; simp at heq0
      next l' r' heq0 =>
        rw [hget] at heq0
        simp only [Option.some.injEq, ENode.mul.injEq] at heq0
        obtain ⟨hl, hr⟩ := heq0
        subst hl; subst hr
        split at hd
        · simp at hd
        next h1 d1 heq1 =>
          split at hd
          · simp at hd
          next h2 d2 heq2 =>
            simp only [pushN, Except.ok.injEq, Prod.mk.injEq] at hd
            have hnorm : h' = h2 ++ [.mul d1 r, .mul l d2,
                .add h2.length (h2.length + 1)] := by
              rw [← hd.1]; simp [List.append_assoc]
            have hj : j = h2.length + 2 := by
              rw [← hd.2]; simp
            have key := fun k => get?_append_add h2
              [.mul d1 r, .mul l d2, .add h2.length (h2.length + 1)] k
            refine ⟨h2.length, h2.length + 1, d1, d2, ?_, ?_, ?_⟩
            · rw [hnorm, hj]; simpa using key 2
            · rw [hnorm]; simpa using key 0
            · rw [hnorm]; simpa using key 1
      next l' r' heq0 => rw [hget] at heq0; simp at heq0
      next b' e' heq0 => rw [hget] at heq0; simp at heq0
      next name ops heq0 => rw [hget] at heq0; simp at heq0
  · intro fuel i l r h' j hget hd
    cases fuel with
    | zero => exact absurd hd (by simp [diffHF])
    | succ fuel =>
      simp only [diffHF] at hd
      split at hd
      · simp at hd
      next v heq0 => rw [hget] at heq0; simp at heq0
      next s heq0 => rw [hget] at heq0; simp at heq0
      next l' r' heq0 => rw [hget] at heq0; simp at heq0
      next l' r' heq0 => rw [hget] at heq0; simp at heq0
      next l' r' heq0 => rw [hget] at heq0; simp at heq0
      next l' r' heq0 =>
        rw [hget] at heq0
        simp only [Option.some.injEq, ENode.div.injEq] at heq0
        obtain ⟨hl, hr⟩ := heq0
        subst hl; subst hr
        split at hd
        · simp at hd
        next h1 d1 heq1 =>
          split at hd
          · simp at hd
          next h2 d2 heq2 =>
            simp only [pushN, Except.ok.injEq, Prod.mk.injEq] at hd
            have hnorm : h' = h2 ++ [.mul r d1, .mul l d2,
                .sub h2.length (h2.length + 1), .number (.int 2),
                .pow r (h2.length + 3),
                .div (h2.length + 2) (h2.length + 4)] := by
              rw [← hd.1]; simp [List.append_assoc]
            have hj : j = h2.length + 5 := by
              rw [← hd.2]; simp
            have key := fun k => get?_append_add h2
              [.mul r d1, .mul l d2, .sub h2.length (h2.length + 1),
               .number (.int 2), .pow r (h2.length + 3),
               .div (h2.length + 2) (h2.length + 4)] k
            refine ⟨h2.length + 2, h2.length + 4, h2.length, h2.length + 1,
              d1, d2, h2.length + 3, ?_, ?_, ?_, ?_, ?_, ?_⟩
            · rw [hnorm, hj]; simpa using key 5
            · rw [hnorm]; simpa using key 2
            · rw [hnorm]; simpa using key 0
            · rw [hnorm]; simpa using key 1
            · rw [hnorm]; simpa using key 4
            · rw [hnorm]; simpa using key 3
      next b' e' heq0 => rw [hget] at heq0; simp at heq0
      next name ops heq0 => rw [hget] at heq0; simp at heq0
  · intro fuel i bb ee h' j hget hd
    cases fuel with
    | zero => exact absurd hd (by simp [diffHF])
    | succ fuel =>
      simp only [diffHF] at hd
      split at hd
      · simp at hd
      next v heq0 => rw [hget] at heq0; simp at heq0
      next s heq0 => rw [hget] at heq0; simp at heq0
      next l' r' heq0 => rw [hget] at heq0; simp at heq0
      next l' r' heq0 => rw [hget] at heq0; simp at heq0
      next l' r' heq0 => rw [hget] at heq0; simp at heq0
      next l' r' heq0 => rw [hget] at heq0; simp at heq0
      next b' e' heq0 =>
        rw [hget] at heq0
        simp only [Option.some.injEq, ENode.pow.injEq] at heq0
        obtain ⟨hb, he⟩ := heq0
        subst hb; subst he
        simp only [pushN, Except.ok.injEq, Prod.mk.injEq] at hd
        have hnorm : h' = h ++ [.number (.int 1), .sub ee h.length,
            .pow bb (h.length + 1), .mul ee (h.length + 2)] := by
          rw [← hd.1]; simp [List.append_assoc]
        have hj : j = h.length + 3 := by
          rw [← hd.2]; simp
        have key := fun k => get?_append_add h
          [.number (.int 1), .sub ee h.length, .pow bb (h.length + 1),
           .mul ee (h.length + 2)] k
        refine ⟨h.length + 2, h.length + 1, h.length, ?_, ?_, ?_, ?_⟩
        · rw [hnorm, hj]; simpa using key 3
        · rw [hnorm]; simpa using key 2
        · rw [hnorm]; simpa using key 1
        · rw [hnorm]; simpa using key 0
      next name ops heq0 => rw [hget] at heq0; simp at heq0

/-- The object tree `Mul(Symbol("x"), Symbol("y"))` (with unused `Div`
and `Pow` siblings over the same leaves). -/
def aliasHeap : Heap := [.symbol "x", .symbol "y", .mul 0 1, .div 0 1, .pow 0 1]

theorem differentiate_aliases_operands_witness :
    (∀ k, k < aliasHeap.length →
      (aliasHeap ++ [ENode.number (.int 1), .number (.int 0), .mul 5 1,
        .mul 0 6, .add 7 8]).get? k = aliasHeap.get? k) ∧
    ∃ a b dl dr,
      (aliasHeap ++ [ENode.number (.int 1), .number (.int 0), .mul 5 1,
        .mul 0 6, .add 7 8]).get? 9 = some (.add a b) ∧
      (aliasHeap ++ [ENode.number (.int 1), .number (.int 0), .mul 5 1,
        .mul 0 6, .add 7 8]).get? a = some (.mul dl 1) ∧
      (aliasHeap ++ [ENode.number (.int 1), .number (.int 0), .mul 5 1,
        .mul 0 6, .add 7 8]).get? b = some (.mul 0 dr) :=
  ⟨(differentiate_aliases_operands aliasHeap "x").1 3 2
      (aliasHeap ++ [ENode.number (.int 1), .number (.int 0), .mul 5 1,
        .mul 0 6, .add 7 8]) 9 rfl,
   (differentiate_aliases_operands aliasHeap "x").2.1 3 2 0 1
      (aliasHeap ++ [ENode.number (.int 1), .number (.int 0), .mul 5 1,
        .mul 0 6, .add 7 8]) 9 rfl rfl⟩
